import Mathlib

/-!
Verification of the grade-tracker portal (single-file Streamlit app, `src/main.py`)
against its natural-language specification.

Numeric values (grades, scale bounds, step sizes) are modelled as exact
rationals (`ℚ`); the Python code stores them as floats and SQLite REALs.
The Python-level operations used by the histogram code are embedded
faithfully:

* `np.arange(start, stop, step)` produces `ceil((stop - start)/step)`
  points `start + i*step`;
* `round(x, d)` is round-half-to-even at `d` decimal places;
* `int(x)` truncates toward zero;
* `float.is_integer()` tests whether the denominator is 1.
-/

namespace GradeTracker

/-- Python `int(x)`: truncation toward zero. -/
def truncQ (q : ℚ) : ℤ :=
  if q < 0 then ⌈q⌉ else ⌊q⌋

/-- Round a rational to the nearest integer, ties to the even integer
(Python's `round` uses banker's rounding). -/
def rndHalfEven (q : ℚ) : ℤ :=
  if q - ⌊q⌋ < 1/2 then ⌊q⌋
  else if 1/2 < q - ⌊q⌋ then ⌊q⌋ + 1
  else if ⌊q⌋ % 2 = 0 then ⌊q⌋ else ⌊q⌋ + 1

/-- Python `round(x, d)`: round to `d` decimal places, ties to even. -/
def pyRound (q : ℚ) (d : ℕ) : ℚ :=
  (rndHalfEven (q * (10 : ℚ) ^ d) : ℚ) / (10 : ℚ) ^ d

/-- Python float method `is_integer()` on an exact rational. -/
def isIntegerQ (q : ℚ) : Bool :=
  q.den = 1

/-- NumPy `np.arange(start, stop, step)` for positive `step`:
`ceil((stop - start)/step)` points `start + i*step`. -/
def np_arange (start stop step : ℚ) : List ℚ :=
  (List.range (⌈(stop - start) / step⌉.toNat)).map (fun i : ℕ => start + (i : ℚ) * step)

/-- Per-element clean-up the code applies to the raw axis
(`src/main.py:207-210`): `int(x)` when the step is a whole number,
otherwise `round(x, 2)`. -/
def axisNormalize (stp x : ℚ) : ℚ :=
  if isIntegerQ stp then (truncQ x : ℚ) else pyRound x 2

/-- The chart axis (`src/main.py:204-210`):
`np.arange(min_g, max_g + step_g/1000, step_g)`, then cleaned elementwise. -/
def possible_grades (mn mx stp : ℚ) : List ℚ :=
  (np_arange mn (mx + stp / 1000) stp).map (axisNormalize stp)

/-- The reindexed histogram (`src/main.py:212-215`): for every axis key,
the number of stored grades exactly equal to it (`value_counts` followed by
`reindex(..., fill_value=0)` uses exact key lookup; grade values are not
transformed). -/
def chart_data (mn mx stp : ℚ) (grades : List ℚ) : List (ℚ × ℕ) :=
  (possible_grades mn mx stp).map (fun v => (v, grades.count v))

/-- Arithmetic mean (`df.mean()` over the grade column). -/
def meanQ (grades : List ℚ) : ℚ :=
  grades.sum / grades.length

/-- Insert into a weakly sorted list of rationals. -/
def insertSorted (x : ℚ) : List ℚ → List ℚ
  | [] => [x]
  | y :: ys => if x ≤ y then x :: y :: ys else y :: insertSorted x ys

/-- Insertion sort on rationals (ascending). -/
def sortQ (l : List ℚ) : List ℚ :=
  l.foldr insertSorted []

/-- Pandas `median()`: sort, take the middle element, or the average of the
two middle elements when the length is even. -/
def medianQ (grades : List ℚ) : ℚ :=
  let s := sortQ grades
  let n := s.length
  if n = 0 then 0
  else if n % 2 = 1 then s.getD (n / 2) 0
  else (s.getD (n / 2 - 1) 0 + s.getD (n / 2) 0) / 2

/-- A row of the `exams` table (`src/main.py:49-57`): autoincrement id,
unique name, and the grading scale. -/
structure ExamRow where
  id : ℕ
  name : String
  min_grade : ℚ
  max_grade : ℚ
  step_size : ℚ
deriving DecidableEq, Repr

/-- A row of the `grades` table (`src/main.py:59-67`). The timestamp column
is not modelled (no claim mentions it). -/
structure GradeRow where
  id : ℕ
  exam_id : ℕ
  grade : ℚ
deriving DecidableEq, Repr

/-- The `exams` table together with its autoincrement counter. -/
structure ExamsTable where
  rows : List ExamRow
  nextId : ℕ
deriving DecidableEq, Repr

/-- The whole persistent store: both tables and their counters. -/
structure DB where
  exams : ExamsTable
  grades : List GradeRow
  nextGradeId : ℕ
deriving DecidableEq, Repr

/-- The freshly initialised store (`init_db`, `src/main.py:44-68`):
both tables empty, SQLite autoincrement starting at 1. -/
def emptyDB : DB :=
  ⟨⟨[], 1⟩, [], 1⟩

/-- Does the `exams` table contain a row with this name? -/
def HasName (t : ExamsTable) (n : String) : Prop :=
  ∃ r ∈ t.rows, r.name = n

instance (t : ExamsTable) (n : String) : Decidable (HasName t n) :=
  inferInstanceAs (Decidable (∃ r ∈ t.rows, r.name = n))

/-- Overwrite the scale columns of a row when its name matches
(the `DO UPDATE SET` part of the upsert). -/
def applyScale (n : String) (s : ℚ × ℚ × ℚ) (r : ExamRow) : ExamRow :=
  if r.name = n then ⟨r.id, r.name, s.1, s.2.1, s.2.2⟩ else r

/-- The SQL upsert of `sync_config_with_db` (`src/main.py:96-103`):
`INSERT ... ON CONFLICT(name) DO UPDATE SET min_grade, max_grade, step_size`.
On conflict every row with the name keeps its id and gets the new scale;
otherwise a fresh row is appended and the autoincrement counter advances. -/
def upsertExam (t : ExamsTable) (n : String) (mn mx stp : ℚ) : ExamsTable :=
  if HasName t n then
    ⟨t.rows.map (applyScale n (mn, mx, stp)), t.nextId⟩
  else
    ⟨t.rows ++ [⟨t.nextId, n, mn, mx, stp⟩], t.nextId + 1⟩

/-- One record of the parsed `exams.json`, as a JSON object: each of the
required keys may be absent (accessing an absent key raises `KeyError`). -/
structure ConfigRecord where
  name : Option String
  min : Option ℚ
  max : Option ℚ
  step : Option ℚ
deriving DecidableEq, Repr

/-- A config record with all four required fields present. -/
structure ExamConfig where
  name : String
  min : ℚ
  max : ℚ
  step : ℚ
deriving DecidableEq, Repr

/-- Completion of a parsed record: `some` iff no required key is missing. -/
def toExamConfig (r : ConfigRecord) : Option ExamConfig :=
  match r.name, r.min, r.max, r.step with
  | some n, some mn, some mx, some stp => some ⟨n, mn, mx, stp⟩
  | _, _, _, _ => none

/-- The exceptions `sync_config_with_db` can raise while reading the config:
`json.JSONDecodeError` from `json.load`, `KeyError` from a missing field. -/
inductive SyncError where
  | jsonDecodeError : SyncError
  | keyError : String → SyncError
deriving DecidableEq, Repr

/-- The state of the external config resource `exams.json` as the app sees
it: absent, present but unparsable, or parsed into a list of records. -/
inductive ConfigSource where
  | absent : ConfigSource
  | unparsable : ConfigSource
  | parsed : List ConfigRecord → ConfigSource
deriving DecidableEq, Repr

/-- The loop body of `sync_config_with_db` (`src/main.py:92-103`): for each
record, read `name` (KeyError if missing), append it to the name list, then
upsert with `min`, `max`, `step` (KeyError on the first missing one). -/
def syncRecords (t : ExamsTable) (acc : List String) :
    List ConfigRecord → Except SyncError (ExamsTable × List String)
  | [] => .ok (t, acc)
  | rec :: rest =>
    match rec.name with
    | none => .error (.keyError "name")
    | some n =>
      match rec.min with
      | none => .error (.keyError "min")
      | some mn =>
        match rec.max with
        | none => .error (.keyError "max")
        | some mx =>
          match rec.step with
          | none => .error (.keyError "step")
          | some stp => syncRecords (upsertExam t n mn mx stp) (acc ++ [n]) rest

/-- The two default exams written to a missing `exams.json`
(`src/main.py:77-80`). -/
def defaultConfig : List ExamConfig :=
  [⟨"Math 101", 1, 5, 1/10⟩, ⟨"Databases", 0, 40, 1⟩]

/-- `sync_config_with_db` (`src/main.py:70-106`). If the config file is
absent it is created with the defaults and their names are returned without
touching the store; if it is unparsable, `json.load` raises; otherwise the
records are upserted in order and the names returned in config order.
The grades table is never touched. -/
def sync_config_with_db (db : DB) (cfg : ConfigSource) :
    Except SyncError (DB × List String) :=
  match cfg with
  | .absent => .ok (db, defaultConfig.map (fun r => r.name))
  | .unparsable => .error .jsonDecodeError
  | .parsed recs =>
    match syncRecords db.exams [] recs with
    | .ok (t, names) => .ok ({ db with exams := t }, names)
    | .error e => .error e

/-- The store an observer sees after a call to `sync_config_with_db`:
on success the committed store; on an exception the original one, because
the `with sqlite3.connect(...)` context manager rolls back the open
transaction when the block raises, so no upsert of the failed run is
persisted. -/
def runSync (db : DB) (cfg : ConfigSource) : DB :=
  match sync_config_with_db db cfg with
  | .ok (db', _) => db'
  | .error _ => db

/-- `save_grade` (`src/main.py:124-128`): unconditionally insert one row
into `grades`; no range or step check is performed. -/
def save_grade (db : DB) (exam_id : ℕ) (grade : ℚ) : DB :=
  { db with
    grades := db.grades ++ [⟨db.nextGradeId, exam_id, grade⟩],
    nextGradeId := db.nextGradeId + 1 }

/-- `get_grades_for_exam` (`src/main.py:130-134`): the grade values whose
row references the exam, in insertion order. -/
def get_grades_for_exam (db : DB) (exam_id : ℕ) : List ℚ :=
  (db.grades.filter (fun g => g.exam_id = exam_id)).map (fun g => g.grade)

/-- The fold of upserts performed by a successful sync run, phrased over
complete records. -/
def syncFold (t : ExamsTable) : List ExamConfig → ExamsTable
  | [] => t
  | r :: rest => syncFold (upsertExam t r.name r.min r.max r.step) rest

/-- The scale of the last record with a given name, if any. -/
def lastScale : List ExamConfig → String → Option (ℚ × ℚ × ℚ)
  | [], _ => none
  | r :: rest, n =>
    match lastScale rest n with
    | some s => some s
    | none => if r.name = n then some (r.min, r.max, r.step) else none

/-- The scale columns of a row, as a triple. -/
def scaleOf (r : ExamRow) : ℚ × ℚ × ℚ :=
  (r.min_grade, r.max_grade, r.step_size)

/-- Overwrite the scale of every row with a given name (the effect of the
upsert's conflict branch, as a standalone operation). -/
def rescaleAll (n : String) (s : ℚ × ℚ × ℚ) (t : ExamsTable) : ExamsTable :=
  ⟨t.rows.map (applyScale n s), t.nextId⟩

/-- Modelled from the spec (§4.2, step 2): the normalization the claim
describes — round to the nearest integer when the step is a whole number,
otherwise round to one decimal place. Stated only to be compared with the
clean-up the code actually performs (`axisNormalize`). -/
def claimedNormalize (stp x : ℚ) : ℚ :=
  if isIntegerQ stp then (rndHalfEven x : ℚ) else pyRound x 1

/-- The selector options the app obtains at start-up (`src/main.py:142,152`):
`some names` when the sync call returns, `none` when it raises — in the
latter case the script aborts before `st.selectbox` is reached. -/
def selectorOptions (db : DB) (cfg : ConfigSource) : Option (List String) :=
  match sync_config_with_db db cfg with
  | .ok (_, names) => some names
  | .error _ => none

lemma rndHalfEven_intCast (m : ℤ) : rndHalfEven (m : ℚ) = m := by
  unfold rndHalfEven
  rw [Int.floor_intCast, sub_self]
  norm_num

lemma le_rndHalfEven (q : ℚ) : ⌊q⌋ ≤ rndHalfEven q := by
  unfold rndHalfEven
  split_ifs <;> omega

lemma rndHalfEven_le (q : ℚ) : rndHalfEven q ≤ ⌊q⌋ + 1 := by
  unfold rndHalfEven
  split_ifs <;> omega

lemma rndHalfEven_mono {q r : ℚ} (h : q ≤ r) : rndHalfEven q ≤ rndHalfEven r := by
  rcases lt_or_eq_of_le (Int.floor_le_floor h) with hf | hf
  · calc rndHalfEven q ≤ ⌊q⌋ + 1 := rndHalfEven_le q
      _ ≤ ⌊r⌋ := by omega
      _ ≤ rndHalfEven r := le_rndHalfEven r
  · have hd : q - ⌊q⌋ ≤ r - ⌊r⌋ := by
      rw [← hf]
      exact sub_le_sub_right h _
    unfold rndHalfEven
    rw [hf] at hd ⊢
    split_ifs <;> first | omega | linarith

lemma truncQ_intCast (m : ℤ) : truncQ (m : ℚ) = m := by
  unfold truncQ
  split_ifs <;> simp

lemma truncQ_mono {q r : ℚ} (h : q ≤ r) : truncQ q ≤ truncQ r := by
  unfold truncQ
  split_ifs with hq hr
  · exact Int.ceil_le_ceil h
  · have h1 : ⌈q⌉ ≤ 0 := Int.ceil_le.mpr (by exact_mod_cast hq.le)
    have h2 : (0 : ℤ) ≤ ⌊r⌋ := Int.floor_nonneg.mpr (not_lt.mp hr)
    omega
  · exact absurd (h.trans_lt ‹r < 0›) hq
  · exact Int.floor_le_floor h

lemma pyRound_mono {q r : ℚ} (d : ℕ) (h : q ≤ r) : pyRound q d ≤ pyRound r d := by
  unfold pyRound
  have hp : (0 : ℚ) < (10 : ℚ) ^ d := by positivity
  rw [div_le_div_iff_of_pos_right hp]
  exact_mod_cast rndHalfEven_mono (mul_le_mul_of_nonneg_right h hp.le)

lemma pyRound_eq_self (k : ℤ) (d : ℕ) :
    pyRound ((k : ℚ) / (10 : ℚ) ^ d) d = (k : ℚ) / (10 : ℚ) ^ d := by
  unfold pyRound
  have hp : ((10 : ℚ) ^ d) ≠ 0 := by positivity
  rw [div_mul_cancel₀ _ hp, rndHalfEven_intCast]

lemma axisNormalize_mono (stp : ℚ) {q r : ℚ} (h : q ≤ r) :
    axisNormalize stp q ≤ axisNormalize stp r := by
  unfold axisNormalize
  split_ifs
  · exact_mod_cast truncQ_mono h
  · exact pyRound_mono 2 h

lemma axisNormalize_idem (stp x : ℚ) :
    axisNormalize stp (axisNormalize stp x) = axisNormalize stp x := by
  unfold axisNormalize
  split_ifs
  · rw [truncQ_intCast]
  · show pyRound ((rndHalfEven (x * (10 : ℚ) ^ 2) : ℚ) / (10 : ℚ) ^ 2) 2 = _
    exact pyRound_eq_self _ 2

/-- Every value on the produced axis is a fixed point of the clean-up the
code applies. -/
lemma possible_grades_canonical (mn mx stp : ℚ) :
    ∀ v ∈ possible_grades mn mx stp, axisNormalize stp v = v := by
  intro v hv
  obtain ⟨x, _, rfl⟩ := List.mem_map.mp hv
  exact axisNormalize_idem stp x

/-- The produced axis is weakly ascending whenever the step is positive. -/
lemma possible_grades_sorted (mn mx stp : ℚ) (h : 0 < stp) :
    (possible_grades mn mx stp).Sorted (fun a b => a ≤ b) := by
  unfold possible_grades np_arange
  rw [List.map_map]
  refine (List.sorted_lt_range _).map _ (fun a b hab => ?_)
  simp only [Function.comp]
  apply axisNormalize_mono
  have hc : (a : ℚ) ≤ (b : ℚ) := by exact_mod_cast Nat.le_of_lt hab
  have := mul_le_mul_of_nonneg_right hc h.le
  linarith

lemma map_fst_pair {α β : Type _} (f : α → β) (l : List α) :
    (l.map (fun v => (v, f v))).map Prod.fst = l := by
  induction l with
  | nil => rfl
  | cons a l ih => simp only [List.map_cons, ih]

lemma chart_data_keys (mn mx stp : ℚ) (grades : List ℚ) :
    (chart_data mn mx stp grades).map Prod.fst = possible_grades mn mx stp :=
  map_fst_pair _ _

lemma chart_data_counts (mn mx stp : ℚ) (grades : List ℚ) :
    ∀ p ∈ chart_data mn mx stp grades, p.2 = grades.count p.1 := by
  intro p hp
  obtain ⟨v, _, rfl⟩ := List.mem_map.mp hp
  rfl

lemma chart_data_mem (mn mx stp g : ℚ) (grades : List ℚ)
    (hax : g ∈ possible_grades mn mx stp) :
    (g, grades.count g) ∈ chart_data mn mx stp grades :=
  List.mem_map.mpr ⟨g, hax, rfl⟩

lemma applyScale_name (n : String) (s : ℚ × ℚ × ℚ) (r : ExamRow) :
    (applyScale n s r).name = r.name := by
  unfold applyScale
  split_ifs <;> rfl

lemma applyScale_of_ne (n : String) (s : ℚ × ℚ × ℚ) {r : ExamRow} (h : r.name ≠ n) :
    applyScale n s r = r := by
  unfold applyScale
  rw [if_neg h]

lemma scaleOf_applyScale (n : String) (s : ℚ × ℚ × ℚ) {r : ExamRow} (h : r.name = n) :
    scaleOf (applyScale n s r) = s := by
  unfold applyScale scaleOf
  rw [if_pos h]

lemma applyScale_applyScale (n : String) (s s' : ℚ × ℚ × ℚ) (r : ExamRow) :
    applyScale n s (applyScale n s' r) = applyScale n s r := by
  unfold applyScale
  by_cases h : r.name = n <;> simp [h]

lemma applyScale_comm {n m : String} (hnm : n ≠ m) (s s' : ℚ × ℚ × ℚ) (r : ExamRow) :
    applyScale n s (applyScale m s' r) = applyScale m s' (applyScale n s r) := by
  unfold applyScale
  by_cases h1 : r.name = m <;> by_cases h2 : r.name = n <;>
    simp_all [Ne.symm hnm]

lemma HasName_upsertExam (t : ExamsTable) (n m : String) (mn mx stp : ℚ) :
    HasName (upsertExam t n mn mx stp) m ↔ (HasName t m ∨ n = m) := by
  unfold upsertExam
  split_ifs with h
  · constructor
    · rintro ⟨r, hr, hname⟩
      obtain ⟨r0, hr0, rfl⟩ := List.mem_map.mp hr
      rw [applyScale_name] at hname
      exact Or.inl ⟨r0, hr0, hname⟩
    · rintro (⟨r, hr, hname⟩ | rfl)
      · exact ⟨_, List.mem_map_of_mem _ hr, by rw [applyScale_name]; exact hname⟩
      · obtain ⟨r, hr, hname⟩ := h
        exact ⟨_, List.mem_map_of_mem _ hr, by rw [applyScale_name]; exact hname⟩
  · constructor
    · rintro ⟨r, hr, hname⟩
      rcases List.mem_append.mp hr with h1 | h1
      · exact Or.inl ⟨r, h1, hname⟩
      · rw [List.mem_singleton] at h1
        subst h1
        exact Or.inr hname
    · rintro (⟨r, hr, hname⟩ | rfl)
      · exact ⟨r, List.mem_append_left _ hr, hname⟩
      · exact ⟨_, List.mem_append_right _ (List.mem_singleton_self _), rfl⟩

lemma HasName_upsertExam_self (t : ExamsTable) (n : String) (mn mx stp : ℚ) :
    HasName (upsertExam t n mn mx stp) n :=
  (HasName_upsertExam t n n mn mx stp).mpr (Or.inr rfl)

lemma filter_upsertExam_ne (t : ExamsTable) {n m : String} (hnm : n ≠ m) (mn mx stp : ℚ) :
    (upsertExam t n mn mx stp).rows.filter (fun r => r.name = m)
      = t.rows.filter (fun r => r.name = m) := by
  unfold upsertExam
  split_ifs with h
  · show (t.rows.map (applyScale n (mn, mx, stp))).filter _ = _
    rw [List.filter_map]
    have h1 : (fun r : ExamRow => decide (r.name = m)) ∘ applyScale n (mn, mx, stp)
        = fun r : ExamRow => decide (r.name = m) := by
      funext r
      simp [Function.comp, applyScale_name]
    rw [h1]
    have h2 : List.map (applyScale n (mn, mx, stp)) (t.rows.filter (fun r => r.name = m))
        = List.map id (t.rows.filter (fun r => r.name = m)) := by
      apply List.map_congr_left
      intro r hr
      rw [List.mem_filter, decide_eq_true_eq] at hr
      exact applyScale_of_ne n _ (fun hc => hnm (hc.symm.trans hr.2))
    rw [h2, List.map_id]
  · show (t.rows ++ [_]).filter _ = _
    rw [List.filter_append]
    have : ([(⟨t.nextId, n, mn, mx, stp⟩ : ExamRow)].filter (fun r => r.name = m)) = [] := by
      simp [hnm]
    rw [this, List.append_nil]

lemma scale_upsertExam_self (t : ExamsTable) (n : String) (mn mx stp : ℚ) :
    ∀ r ∈ (upsertExam t n mn mx stp).rows, r.name = n → scaleOf r = (mn, mx, stp) := by
  unfold upsertExam
  split_ifs with h
  · intro r hr hname
    obtain ⟨r0, _, rfl⟩ := List.mem_map.mp hr
    rw [applyScale_name] at hname
    exact scaleOf_applyScale n _ hname
  · intro r hr hname
    rcases List.mem_append.mp hr with h1 | h1
    · exact absurd ⟨r, h1, hname⟩ h
    · rw [List.mem_singleton] at h1
      subst h1
      rfl

lemma scale_upsertExam_ne (t : ExamsTable) {n m : String} (hnm : n ≠ m) (mn mx stp : ℚ)
    {s : ℚ × ℚ × ℚ} (hall : ∀ r ∈ t.rows, r.name = m → scaleOf r = s) :
    ∀ r ∈ (upsertExam t n mn mx stp).rows, r.name = m → scaleOf r = s := by
  unfold upsertExam
  split_ifs with h
  · intro r hr hname
    obtain ⟨r0, hr0, rfl⟩ := List.mem_map.mp hr
    rw [applyScale_name] at hname
    rw [applyScale_of_ne n _ (hname ▸ fun hc => hnm hc.symm)]
    exact hall r0 hr0 hname
  · intro r hr hname
    rcases List.mem_append.mp hr with h1 | h1
    · exact hall r h1 hname
    · rw [List.mem_singleton] at h1
      subst h1
      exact absurd hname hnm

lemma countP_upsertExam_of_HasName (t : ExamsTable) (n : String) (mn mx stp : ℚ)
    (h : HasName t n) (m : String) :
    (upsertExam t n mn mx stp).rows.countP (fun r => r.name = m)
      = t.rows.countP (fun r => r.name = m) := by
  unfold upsertExam
  rw [if_pos h]
  show (t.rows.map (applyScale n (mn, mx, stp))).countP _ = _
  rw [List.countP_map]
  apply List.countP_congr
  intro r _
  simp [Function.comp, applyScale_name]

lemma countP_upsertExam_self_absent (t : ExamsTable) (n : String) (mn mx stp : ℚ)
    (h : ¬HasName t n) :
    (upsertExam t n mn mx stp).rows.countP (fun r => r.name = n) = 1 := by
  unfold upsertExam
  rw [if_neg h]
  show (t.rows ++ [_]).countP _ = 1
  rw [List.countP_append]
  have h0 : t.rows.countP (fun r => r.name = n) = 0 := by
    rw [List.countP_eq_zero]
    intro r hr
    rw [decide_eq_true_eq]
    exact fun hc => h ⟨r, hr, hc⟩
  rw [h0]
  simp

lemma countP_upsertExam_ne (t : ExamsTable) {n m : String} (hnm : n ≠ m) (mn mx stp : ℚ) :
    (upsertExam t n mn mx stp).rows.countP (fun r => r.name = m)
      = t.rows.countP (fun r => r.name = m) := by
  rw [List.countP_eq_length_filter, List.countP_eq_length_filter,
    filter_upsertExam_ne t hnm mn mx stp]

lemma HasName_syncFold (t : ExamsTable) (recs : List ExamConfig) (m : String) :
    HasName (syncFold t recs) m ↔ (HasName t m ∨ m ∈ recs.map (fun r => r.name)) := by
  induction recs generalizing t with
  | nil => simp [syncFold]
  | cons r rest ih =>
    rw [syncFold, ih, HasName_upsertExam]
    simp only [List.map_cons, List.mem_cons]
    constructor
    · rintro ((h | h) | h)
      · exact Or.inl h
      · exact Or.inr (Or.inl h.symm)
      · exact Or.inr (Or.inr h)
    · rintro (h | h | h)
      · exact Or.inl (Or.inl h)
      · exact Or.inl (Or.inr h.symm)
      · exact Or.inr h

lemma filter_syncFold_of_not_mem (t : ExamsTable) (recs : List ExamConfig) {m : String}
    (h : m ∉ recs.map (fun r => r.name)) :
    (syncFold t recs).rows.filter (fun r => r.name = m)
      = t.rows.filter (fun r => r.name = m) := by
  induction recs generalizing t with
  | nil => rfl
  | cons r rest ih =>
    rw [List.map_cons, List.mem_cons] at h
    push_neg at h
    rw [syncFold, ih _ h.2, filter_upsertExam_ne t (fun hc => h.1 hc.symm) _ _ _]

lemma lastScale_eq_none (recs : List ExamConfig) (n : String)
    (h : lastScale recs n = none) : n ∉ recs.map (fun r => r.name) := by
  induction recs with
  | nil => simp
  | cons r rest ih =>
    cases hrest : lastScale rest n with
    | some s => simp [lastScale, hrest] at h
    | none =>
      simp only [lastScale, hrest] at h
      by_cases hname : r.name = n
      · rw [if_pos hname] at h
        cases h
      · simp only [List.map_cons, List.mem_cons]
        rintro (hc | hc)
        · exact hname hc.symm
        · exact ih hrest hc

lemma scale_syncFold_lastScale (recs : List ExamConfig) (n : String) (s : ℚ × ℚ × ℚ)
    (hlast : lastScale recs n = some s) (t : ExamsTable) :
    ∀ r ∈ (syncFold t recs).rows, r.name = n → scaleOf r = s := by
  induction recs generalizing t with
  | nil => simp [lastScale] at hlast
  | cons r rest ih =>
    rw [syncFold]
    cases hrest : lastScale rest n with
    | some s' =>
      have hs : s' = s := by simp [lastScale, hrest] at hlast; exact hlast
      subst hs
      exact ih hrest _
    | none =>
      simp only [lastScale, hrest] at hlast
      by_cases hname : r.name = n
      · rw [if_pos hname] at hlast
        have hs := Option.some.inj hlast
        have hnotin : n ∉ rest.map (fun x => x.name) := lastScale_eq_none rest n hrest
        intro row hrow hrowname
        have hfil := filter_syncFold_of_not_mem
          (upsertExam t r.name r.min r.max r.step) rest hnotin
        have hmem : row ∈ (upsertExam t r.name r.min r.max r.step).rows := by
          have h1 : row ∈ (syncFold (upsertExam t r.name r.min r.max r.step) rest).rows.filter
              (fun x => x.name = n) :=
            List.mem_filter.mpr ⟨hrow, by rw [decide_eq_true_eq]; exact hrowname⟩
          rw [hfil] at h1
          exact (List.mem_filter.mp h1).1
        rw [← hs]
        exact scale_upsertExam_self t r.name r.min r.max r.step row hmem
          (hrowname.trans hname.symm)
      · rw [if_neg hname] at hlast
        cases hlast

lemma countP_syncFold_of_HasName (t : ExamsTable) (recs : List ExamConfig) {n : String}
    (h : HasName t n) :
    (syncFold t recs).rows.countP (fun r => r.name = n)
      = t.rows.countP (fun r => r.name = n) := by
  induction recs generalizing t with
  | nil => rfl
  | cons r rest ih =>
    rw [syncFold]
    have hkeep : HasName (upsertExam t r.name r.min r.max r.step) n :=
      (HasName_upsertExam t r.name n r.min r.max r.step).mpr (Or.inl h)
    by_cases hpres : HasName t r.name
    · rw [ih _ hkeep, countP_upsertExam_of_HasName t r.name r.min r.max r.step hpres n]
    · have hrn : r.name ≠ n := fun hc => hpres (hc ▸ h)
      rw [ih _ hkeep, countP_upsertExam_ne t hrn]

lemma countP_syncFold_of_absent (t : ExamsTable) (recs : List ExamConfig) {n : String}
    (h : ¬HasName t n) :
    (syncFold t recs).rows.countP (fun r => r.name = n)
      = if n ∈ recs.map (fun r => r.name) then 1 else 0 := by
  induction recs generalizing t with
  | nil =>
    rw [syncFold]
    simp only [List.map_nil, List.not_mem_nil, if_false]
    rw [List.countP_eq_zero]
    intro r hr
    simp only [decide_eq_true_eq]
    exact fun hc => h ⟨r, hr, hc⟩
  | cons r rest ih =>
    rw [syncFold]
    by_cases hrn : r.name = n
    · subst hrn
      have h1 : HasName (upsertExam t r.name r.min r.max r.step) r.name :=
        HasName_upsertExam_self t r.name r.min r.max r.step
      rw [countP_syncFold_of_HasName _ rest h1,
        countP_upsertExam_self_absent t r.name r.min r.max r.step h]
      simp
    · have h2 : ¬HasName (upsertExam t r.name r.min r.max r.step) n := by
        rw [HasName_upsertExam]
        rintro (hc | hc)
        · exact h hc
        · exact hrn hc
      have hrn' : ¬(n = r.name) := fun hc => hrn hc.symm
      rw [ih _ h2]
      simp [List.map_cons, List.mem_cons, hrn']

lemma upsertExam_of_HasName {t : ExamsTable} {n : String} (h : HasName t n)
    (mn mx stp : ℚ) : upsertExam t n mn mx stp = rescaleAll n (mn, mx, stp) t := by
  unfold upsertExam rescaleAll
  rw [if_pos h]

lemma HasName_rescaleAll (n : String) (s : ℚ × ℚ × ℚ) (t : ExamsTable) (m : String) :
    HasName (rescaleAll n s t) m ↔ HasName t m := by
  unfold rescaleAll HasName
  constructor
  · rintro ⟨r, hr, hname⟩
    obtain ⟨r0, hr0, rfl⟩ := List.mem_map.mp hr
    rw [applyScale_name] at hname
    exact ⟨r0, hr0, hname⟩
  · rintro ⟨r, hr, hname⟩
    exact ⟨_, List.mem_map_of_mem _ hr, by rw [applyScale_name]; exact hname⟩

lemma rescaleAll_of_absent {t : ExamsTable} {n : String} (h : ¬HasName t n)
    (s : ℚ × ℚ × ℚ) : rescaleAll n s t = t := by
  unfold rescaleAll
  have : t.rows.map (applyScale n s) = List.map id t.rows := by
    apply List.map_congr_left
    intro r hr
    exact applyScale_of_ne n s (fun hc => h ⟨r, hr, hc⟩)
  rw [this, List.map_id]

lemma upsertExam_rescaleAll_same (t : ExamsTable) (n : String) (s : ℚ × ℚ × ℚ)
    (mn mx stp : ℚ) :
    upsertExam (rescaleAll n s t) n mn mx stp = upsertExam t n mn mx stp := by
  by_cases h : HasName t n
  · have h' : HasName (rescaleAll n s t) n := (HasName_rescaleAll n s t n).mpr h
    rw [upsertExam_of_HasName h' mn mx stp, upsertExam_of_HasName h mn mx stp]
    unfold rescaleAll
    rw [List.map_map]
    congr 1
    exact List.map_congr_left (fun r _ => applyScale_applyScale n (mn, mx, stp) s r)
  · rw [rescaleAll_of_absent h s]

lemma upsertExam_rescaleAll_comm {n m : String} (hnm : n ≠ m) (s : ℚ × ℚ × ℚ)
    (t : ExamsTable) (mn mx stp : ℚ) :
    upsertExam (rescaleAll m s t) n mn mx stp
      = rescaleAll m s (upsertExam t n mn mx stp) := by
  by_cases h : HasName t n
  · have h' : HasName (rescaleAll m s t) n := (HasName_rescaleAll m s t n).mpr h
    rw [upsertExam_of_HasName h' mn mx stp, upsertExam_of_HasName h mn mx stp]
    unfold rescaleAll
    simp only [List.map_map]
    congr 1
    exact List.map_congr_left (fun r _ => applyScale_comm hnm (mn, mx, stp) s r)
  · have h' : ¬HasName (rescaleAll m s t) n := fun hc => h ((HasName_rescaleAll m s t n).mp hc)
    unfold upsertExam
    rw [if_neg h, if_neg h']
    unfold rescaleAll
    simp only [List.map_append]
    have hone : List.map (applyScale m s) [(⟨t.nextId, n, mn, mx, stp⟩ : ExamRow)]
        = [(⟨t.nextId, n, mn, mx, stp⟩ : ExamRow)] := by
      simp only [List.map_cons, List.map_nil]
      rw [applyScale_of_ne m s (show (⟨t.nextId, n, mn, mx, stp⟩ : ExamRow).name ≠ m from hnm)]
    rw [hone]

lemma syncFold_rescaleAll {recs : List ExamConfig} {m : String}
    (hmem : m ∈ recs.map (fun r => r.name)) (s : ℚ × ℚ × ℚ) (t : ExamsTable) :
    syncFold (rescaleAll m s t) recs = syncFold t recs := by
  induction recs generalizing t with
  | nil => cases hmem
  | cons r rest ih =>
    rw [syncFold, syncFold]
    by_cases hr : r.name = m
    · subst hr
      rw [upsertExam_rescaleAll_same]
    · rw [List.map_cons, List.mem_cons] at hmem
      rcases hmem with hc | hc
      · exact absurd hc.symm hr
      · rw [upsertExam_rescaleAll_comm hr s t r.min r.max r.step]
        exact ih hc _

lemma syncFold_noop {t : ExamsTable} {n : String} {mn mx stp : ℚ} (h : HasName t n)
    (hall : ∀ r ∈ t.rows, r.name = n → scaleOf r = (mn, mx, stp)) :
    upsertExam t n mn mx stp = t := by
  rw [upsertExam_of_HasName h mn mx stp]
  unfold rescaleAll
  have hmap : t.rows.map (applyScale n (mn, mx, stp)) = List.map id t.rows := by
    apply List.map_congr_left
    intro r hr
    by_cases hname : r.name = n
    · have hs := hall r hr hname
      unfold applyScale
      rw [if_pos hname]
      unfold scaleOf at hs
      obtain ⟨i, nm, a, b, c⟩ := r
      simp only at hname hs ⊢
      obtain ⟨h1, h2, h3⟩ := Prod.mk.injEq .. ▸ hs
      simp_all
    · exact applyScale_of_ne n _ hname
  rw [hmap, List.map_id]

/-- Re-running the fold of upserts with the same records is a no-op. -/
lemma syncFold_idem (recs : List ExamConfig) (t : ExamsTable) :
    syncFold (syncFold t recs) recs = syncFold t recs := by
  induction recs generalizing t with
  | nil => rfl
  | cons r rest ih =>
    rw [syncFold]
    conv_lhs => rw [syncFold]
    set B := upsertExam t r.name r.min r.max r.step with hB
    have hBname : HasName B r.name := HasName_upsertExam_self t r.name r.min r.max r.step
    have hAname : HasName (syncFold B rest) r.name :=
      (HasName_syncFold B rest r.name).mpr (Or.inl hBname)
    by_cases hc : r.name ∈ rest.map (fun x => x.name)
    · rw [upsertExam_of_HasName hAname r.min r.max r.step]
      rw [syncFold_rescaleAll hc (r.min, r.max, r.step) (syncFold B rest)]
      exact ih B
    · have hall : ∀ row ∈ (syncFold B rest).rows, row.name = r.name →
          scaleOf row = (r.min, r.max, r.step) := by
        intro row hrow hname
        have hfil := filter_syncFold_of_not_mem B rest hc
        have hmem : row ∈ B.rows := by
          have h1 : row ∈ (syncFold B rest).rows.filter (fun x => x.name = r.name) :=
            List.mem_filter.mpr ⟨hrow, by rw [decide_eq_true_eq]; exact hname⟩
          rw [hfil] at h1
          exact (List.mem_filter.mp h1).1
        exact scale_upsertExam_self t r.name r.min r.max r.step row hmem hname
      rw [syncFold_noop hAname hall]
      exact ih B

lemma toExamConfig_eq_some {r : ConfigRecord} {c : ExamConfig} (h : toExamConfig r = some c) :
    r = ⟨some c.name, some c.min, some c.max, some c.step⟩ := by
  obtain ⟨n, mn, mx, stp⟩ := r
  unfold toExamConfig at h
  cases n <;> cases mn <;> cases mx <;> cases stp <;> cases h <;> rfl

lemma lastScale_of_not_mem {recs : List ExamConfig} {n : String}
    (h : n ∉ recs.map (fun r => r.name)) : lastScale recs n = none := by
  induction recs with
  | nil => rfl
  | cons r rest ih =>
    rw [List.map_cons, List.mem_cons] at h
    push_neg at h
    simp only [lastScale, ih h.2]
    rw [if_neg (fun hc => h.1 hc.symm)]

lemma syncRecords_of_complete (recs : List ConfigRecord)
    (h : ∀ r ∈ recs, (toExamConfig r).isSome) (t : ExamsTable) (acc : List String) :
    syncRecords t acc recs
      = .ok (syncFold t (recs.filterMap toExamConfig),
          acc ++ (recs.filterMap toExamConfig).map (fun r => r.name)) := by
  induction recs generalizing t acc with
  | nil => simp [syncRecords, syncFold]
  | cons r rest ih =>
    have hr := h r (List.mem_cons_self r rest)
    obtain ⟨c, hc⟩ := Option.isSome_iff_exists.mp hr
    have hrfields := toExamConfig_eq_some hc
    subst hrfields
    have hrest : ∀ r' ∈ rest, (toExamConfig r').isSome :=
      fun r' hr' => h r' (List.mem_cons_of_mem _ hr')
    have hred : syncRecords t acc
          ((⟨some c.name, some c.min, some c.max, some c.step⟩ : ConfigRecord) :: rest)
        = syncRecords (upsertExam t c.name c.min c.max c.step) (acc ++ [c.name]) rest := rfl
    rw [hred, ih hrest (upsertExam t c.name c.min c.max c.step) (acc ++ [c.name])]
    rw [List.filterMap_cons_some hc]
    rw [syncFold, List.map_cons, List.append_assoc]
    rfl

lemma syncRecords_error_of_incomplete {recs : List ConfigRecord} {r : ConfigRecord}
    (hr : r ∈ recs) (hbad : toExamConfig r = none) (t : ExamsTable) (acc : List String) :
    ∃ e, syncRecords t acc recs = .error e := by
  induction recs generalizing t acc with
  | nil => cases hr
  | cons r0 rest ih =>
    rw [syncRecords]
    cases hn : r0.name with
    | none => exact ⟨.keyError "name", rfl⟩
    | some n =>
      cases hmn : r0.min with
      | none => exact ⟨.keyError "min", rfl⟩
      | some mn =>
        cases hmx : r0.max with
        | none => exact ⟨.keyError "max", rfl⟩
        | some mx =>
          cases hstp : r0.step with
          | none => exact ⟨.keyError "step", rfl⟩
          | some stp =>
            rcases List.mem_cons.mp hr with rfl | hmem
            · exfalso
              unfold toExamConfig at hbad
              rw [hn, hmn, hmx, hstp] at hbad
              cases hbad
            · obtain ⟨e, he⟩ := ih hmem (upsertExam t n mn mx stp) (acc ++ [n])
              exact ⟨e, he⟩

lemma syncRecords_ok_complete {recs : List ConfigRecord} {t : ExamsTable}
    {acc : List String} {res : ExamsTable × List String}
    (h : syncRecords t acc recs = .ok res) :
    ∀ r ∈ recs, (toExamConfig r).isSome := by
  intro r hr
  cases hbad : toExamConfig r with
  | some c => rfl
  | none =>
    obtain ⟨e, he⟩ := syncRecords_error_of_incomplete hr hbad t acc
    rw [he] at h
    cases h

/-- Characterization of a successful sync on a parsed config: every record
is complete, the exams table is the fold of the upserts, the grade table and
its counter are untouched, and the returned names are the records' names in
config order. -/
lemma sync_ok_parsed {db : DB} {recs : List ConfigRecord} {db' : DB} {ns : List String}
    (h : sync_config_with_db db (.parsed recs) = .ok (db', ns)) :
    (∀ r ∈ recs, (toExamConfig r).isSome)
    ∧ db'.exams = syncFold db.exams (recs.filterMap toExamConfig)
    ∧ db'.grades = db.grades
    ∧ db'.nextGradeId = db.nextGradeId
    ∧ ns = (recs.filterMap toExamConfig).map (fun r => r.name) := by
  rw [sync_config_with_db] at h
  cases hs : syncRecords db.exams [] recs with
  | error e =>
    rw [hs] at h
    cases h
  | ok res =>
    obtain ⟨t, names⟩ := res
    have hcomp := syncRecords_ok_complete hs
    have heq := hs.symm.trans (syncRecords_of_complete recs hcomp db.exams [])
    rw [Except.ok.injEq, Prod.mk.injEq] at heq
    obtain ⟨ht, hnames⟩ := heq
    rw [hs] at h
    rw [Except.ok.injEq, Prod.mk.injEq] at h
    obtain ⟨hdb, hns⟩ := h
    subst hdb hns
    refine ⟨hcomp, ?_, rfl, rfl, ?_⟩
    · rw [ht]
    · rw [hnames, List.nil_append]

lemma toExamConfig_eq_none {r : ConfigRecord}
    (h : r.name = none ∨ r.min = none ∨ r.max = none ∨ r.step = none) :
    toExamConfig r = none := by
  obtain ⟨n, mn, mx, stp⟩ := r
  cases n <;> cases mn <;> cases mx <;> cases stp <;> simp_all [toExamConfig]

/-- C1 is false as stated: for the scale (1, 2, 0.05) the produced axis
contains the value 1.05, whose claimed one-decimal rounding is 1.0 ≠ 1.05 —
the code rounds fractional-step axis values to two decimal places, not one.
Moreover recorded grade values are not normalized at all: the recorded grade
1.104, whose claimed normalization 1.1 lies on the (1, 5, 0.1) axis, is
counted at no axis point. -/
theorem C1_counterexample :
    ((21/20 : ℚ) ∈ possible_grades 1 2 (1/20)
      ∧ claimedNormalize (1/20) (21/20) = 1 ∧ (1 : ℚ) ≠ 21/20)
    ∧ (claimedNormalize (1/10) (138/125) = 11/10
      ∧ (11/10 : ℚ) ∈ possible_grades 1 5 (1/10)
      ∧ (chart_data 1 5 (1/10) [138/125]).all (fun p => p.2 = 0)) := by
  with_unfolding_all decide

/-- C1 (amended): axis values are normalized to a canonical rounded
representation — truncated toward zero to an integer when the step is a
whole number, otherwise rounded (half to even) to two decimal places — so
every produced axis value is a fixed point of the code's clean-up; recorded
grade values are not transformed, and any recorded grade exactly equal to an
axis value is found by the exact-key lookup and counted. -/
theorem C1_amended (mn mx stp g : ℚ) (grades : List ℚ)
    (hax : g ∈ possible_grades mn mx stp) :
    axisNormalize stp g = g
    ∧ (g ∈ grades →
        (g, grades.count g) ∈ chart_data mn mx stp grades ∧ 1 ≤ grades.count g) := by
  refine ⟨possible_grades_canonical mn mx stp g hax,
    fun hg => ⟨chart_data_mem mn mx stp g grades hax, ?_⟩⟩
  exact List.count_pos_iff.mpr hg

/-- Witness for C1 (amended) at the scale (1, 5, 0.1), axis value 3.5 and
grade list [3.5]. -/
theorem C1_amended_witness :
    (7/2 : ℚ) ∈ possible_grades 1 5 (1/10)
    ∧ (axisNormalize (1/10) (7/2) = 7/2
      ∧ ((7/2 : ℚ) ∈ ([7/2] : List ℚ) →
          ((7/2 : ℚ), ([7/2] : List ℚ).count (7/2 : ℚ)) ∈ chart_data 1 5 (1/10) [7/2]
          ∧ 1 ≤ ([7/2] : List ℚ).count (7/2 : ℚ))) :=
  ⟨by with_unfolding_all decide,
    C1_amended 1 5 (1/10) (7/2) [7/2] (by with_unfolding_all decide)⟩

/-- C2: the axis for (1, 5, 0.1) is exactly the 41 points 1.0, 1.1, …, 5.0
with the endpoint 5.0 appearing exactly once, and the axis for (0, 40, 1) is
exactly the 41 integer points 0, …, 40. -/
theorem C2_axis :
    possible_grades 1 5 (1/10) = (List.range 41).map (fun i : ℕ => 1 + (i : ℚ)/10)
    ∧ (possible_grades 1 5 (1/10)).length = 41
    ∧ (possible_grades 1 5 (1/10)).count 5 = 1
    ∧ possible_grades 0 40 1 = (List.range 41).map (fun i : ℕ => (i : ℚ))
    ∧ (possible_grades 0 40 1).length = 41 := by
  with_unfolding_all decide

/-- C3 is false as stated: for the legitimate scale (0, 0.01, 0.002) —
min < max, step > 0 — rounding the axis to two decimal places produces the
value 0 three times, so the histogram does not contain every axis value
exactly once. -/
theorem C3_counterexample :
    (0 : ℚ) < 1/100 ∧ (0 : ℚ) < 1/500
    ∧ possible_grades 0 (1/100) (1/500) = [0, 0, 0, 1/100, 1/100, 1/100]
    ∧ ((chart_data 0 (1/100) (1/500) []).map Prod.fst).count 0 = 3 := by
  with_unfolding_all decide

/-- C3 (amended): for every scale with positive step and every grade list,
the histogram's keys are exactly the generated axis in order (weakly
ascending, though values can repeat after rounding), each key paired with
the number of recorded grades exactly equal to it, and zero for axis values
no grade equals. -/
theorem C3_amended (mn mx stp : ℚ) (grades : List ℚ) (h : 0 < stp) :
    (chart_data mn mx stp grades).map Prod.fst = possible_grades mn mx stp
    ∧ ((chart_data mn mx stp grades).map Prod.fst).Sorted (fun a b => a ≤ b)
    ∧ (∀ p ∈ chart_data mn mx stp grades, p.2 = grades.count p.1)
    ∧ (∀ p ∈ chart_data mn mx stp grades, p.1 ∉ grades → p.2 = 0) := by
  refine ⟨chart_data_keys mn mx stp grades, ?_, chart_data_counts mn mx stp grades, ?_⟩
  · rw [chart_data_keys mn mx stp grades]
    exact possible_grades_sorted mn mx stp h
  · intro p hp hnot
    rw [chart_data_counts mn mx stp grades p hp]
    exact List.count_eq_zero.mpr hnot

/-- Witness for C3 (amended) at the scale (1, 5, 0.1) and grade list [1]. -/
theorem C3_amended_witness :
    (0 : ℚ) < 1/10
    ∧ ((chart_data 1 5 (1/10) [1]).map Prod.fst = possible_grades 1 5 (1/10)
      ∧ ((chart_data 1 5 (1/10) [1]).map Prod.fst).Sorted (fun a b => a ≤ b)
      ∧ (∀ p ∈ chart_data 1 5 (1/10) [1], p.2 = ([1] : List ℚ).count p.1)
      ∧ (∀ p ∈ chart_data 1 5 (1/10) [1], p.1 ∉ ([1] : List ℚ) → p.2 = 0)) :=
  ⟨by norm_num, C3_amended 1 5 (1/10) [1] (by norm_num)⟩

/-- C4's tally of zero entries is off by one: the (1, 5, 0.1) scale has 41
axis points and only the two points 1.0 and 3.5 carry nonzero counts for the
grades [1.0, 1.0, 3.5], so 39 — not 38 — axis points carry count zero. -/
theorem C4_counterexample :
    (chart_data 1 5 (1/10) [1, 1, 7/2]).length = 41
    ∧ ((chart_data 1 5 (1/10) [1, 1, 7/2]).filter (fun p => p.2 = 0)).length = 39 := by
  with_unfolding_all decide

/-- C4 (amended): for the grades [1.0, 1.0, 3.5] under the scale (1, 5, 0.1)
the count is 3, the mean is 11/6 = 1.833…, the median is 1.0, the histogram
holds 2 at axis value 1.0 and 1 at axis value 3.5, and each of the other 39
axis points holds 0. -/
theorem C4_aggregates :
    ([1, 1, 7/2] : List ℚ).length = 3
    ∧ meanQ [1, 1, 7/2] = 11/6
    ∧ medianQ [1, 1, 7/2] = 1
    ∧ (1, 2) ∈ chart_data 1 5 (1/10) [1, 1, 7/2]
    ∧ (7/2, 1) ∈ chart_data 1 5 (1/10) [1, 1, 7/2]
    ∧ (chart_data 1 5 (1/10) [1, 1, 7/2]).length = 41
    ∧ ((chart_data 1 5 (1/10) [1, 1, 7/2]).filter (fun p => p.2 = 0)).length = 39 := by
  with_unfolding_all decide

/-- C5 is false as stated: a parsed config whose only record has min = 5,
max = 1 (violating min < max) and step = -1 (violating step > 0) syncs
without any error — no scale validation exists in `sync_config_with_db` —
and the caller happily receives the name list for the selector. -/
theorem C5_counterexample :
    sync_config_with_db emptyDB
        (.parsed [⟨some "X", some 5, some 1, some (-1)⟩])
      = .ok (⟨⟨[⟨1, "X", 5, 1, -1⟩], 2⟩, [], 1⟩, ["X"])
    ∧ ¬((5 : ℚ) < 1) ∧ ¬((0 : ℚ) < -1)
    ∧ selectorOptions emptyDB (.parsed [⟨some "X", some 5, some 1, some (-1)⟩])
        = some ["X"] :=
  ⟨by with_unfolding_all rfl, by norm_num, by norm_num, by with_unfolding_all rfl⟩

/-- C5 (amended): config sync fails with an exception when the config
resource is present but unparsable or some record is missing a required
field, and in that case the caller obtains no option list, so the exam
selector is not rendered; no min < max or step > 0 validation is performed
at sync time. -/
theorem C5_amended (db : DB) (cfg : ConfigSource)
    (h : cfg = .unparsable
      ∨ ∃ recs r, cfg = .parsed recs ∧ r ∈ recs
          ∧ (r.name = none ∨ r.min = none ∨ r.max = none ∨ r.step = none)) :
    selectorOptions db cfg = none := by
  rcases h with rfl | ⟨recs, r, rfl, hr, hbad⟩
  · rfl
  · obtain ⟨e, he⟩ := syncRecords_error_of_incomplete hr (toExamConfig_eq_none hbad) db.exams []
    unfold selectorOptions
    rw [sync_config_with_db, he]

/-- Witness for C5 (amended): a config whose second record lacks the `name`
key yields no selector options. -/
theorem C5_amended_witness :
    selectorOptions emptyDB
        (.parsed [⟨some "Good", some 1, some 5, some (1/10)⟩, ⟨none, some 1, some 2, some 1⟩])
      = none :=
  C5_amended emptyDB _
    (Or.inr ⟨_, ⟨none, some 1, some 2, some 1⟩, rfl,
      List.mem_cons_of_mem _ (List.mem_cons_self _ _), Or.inl rfl⟩)

/-- C6: running the sync twice with the same parsed config leaves the exams
table of the second result equal to that of the first — no duplicate rows,
identical scale values — and returns the same name list. -/
theorem C6_idempotent (db db1 db2 : DB) (recs : List ConfigRecord) (ns1 ns2 : List String)
    (h1 : sync_config_with_db db (.parsed recs) = .ok (db1, ns1))
    (h2 : sync_config_with_db db1 (.parsed recs) = .ok (db2, ns2)) :
    db2.exams = db1.exams ∧ ns2 = ns1 := by
  obtain ⟨_, he1, _, _, hn1⟩ := sync_ok_parsed h1
  obtain ⟨_, he2, _, _, hn2⟩ := sync_ok_parsed h2
  constructor
  · rw [he2, he1, syncFold_idem]
  · rw [hn2, hn1]

/-- Witness for C6: syncing the one-exam config twice from the empty store. -/
theorem C6_idempotent_witness :
    sync_config_with_db emptyDB (.parsed [⟨some "A", some 1, some 5, some (1/10)⟩])
        = .ok (⟨⟨[⟨1, "A", 1, 5, 1/10⟩], 2⟩, [], 1⟩, ["A"])
    ∧ sync_config_with_db (⟨⟨[⟨1, "A", 1, 5, 1/10⟩], 2⟩, [], 1⟩ : DB)
          (.parsed [⟨some "A", some 1, some 5, some (1/10)⟩])
        = .ok (⟨⟨[⟨1, "A", 1, 5, 1/10⟩], 2⟩, [], 1⟩, ["A"])
    ∧ ((⟨⟨[⟨1, "A", 1, 5, 1/10⟩], 2⟩, [], 1⟩ : DB).exams
          = (⟨⟨[⟨1, "A", 1, 5, 1/10⟩], 2⟩, [], 1⟩ : DB).exams
        ∧ (["A"] : List String) = ["A"]) := by
  have h1 : sync_config_with_db emptyDB (.parsed [⟨some "A", some 1, some 5, some (1/10)⟩])
      = .ok (⟨⟨[⟨1, "A", 1, 5, 1/10⟩], 2⟩, [], 1⟩, ["A"]) := by with_unfolding_all rfl
  have h2 : sync_config_with_db (⟨⟨[⟨1, "A", 1, 5, 1/10⟩], 2⟩, [], 1⟩ : DB)
        (.parsed [⟨some "A", some 1, some 5, some (1/10)⟩])
      = .ok (⟨⟨[⟨1, "A", 1, 5, 1/10⟩], 2⟩, [], 1⟩, ["A"]) := by with_unfolding_all rfl
  exact ⟨h1, h2, C6_idempotent emptyDB _ _ _ _ _ h1 h2⟩

/-- C7: re-syncing a config whose last record for an already-stored exam
name carries a changed scale overwrites every row of that name with the new
min/max/step, keeps the number of rows with that name unchanged (no second
row appears), and leaves the grades table untouched. -/
theorem C7_overwrite (db db' : DB) (recs : List ConfigRecord) (ns : List String)
    (n : String) (mn mx stp : ℚ)
    (hok : sync_config_with_db db (.parsed recs) = .ok (db', ns))
    (hpresent : HasName db.exams n)
    (hlast : lastScale (recs.filterMap toExamConfig) n = some (mn, mx, stp)) :
    (∀ r ∈ db'.exams.rows, r.name = n → scaleOf r = (mn, mx, stp))
    ∧ db'.exams.rows.countP (fun r => r.name = n)
        = db.exams.rows.countP (fun r => r.name = n)
    ∧ db'.grades = db.grades := by
  obtain ⟨_, he, hg, _, _⟩ := sync_ok_parsed hok
  refine ⟨?_, ?_, hg⟩
  · rw [he]
    exact scale_syncFold_lastScale _ n _ hlast db.exams
  · rw [he]
    exact countP_syncFold_of_HasName db.exams _ hpresent

/-- Witness for C7: the stored exam "A" with scale (1, 5, 0.1) and one grade
record gets rescaled to (0, 40, 1) in place. -/
theorem C7_overwrite_witness :
    sync_config_with_db (⟨⟨[⟨1, "A", 1, 5, 1/10⟩], 2⟩, [⟨1, 1, 3⟩], 2⟩ : DB)
        (.parsed [⟨some "A", some 0, some 40, some 1⟩])
      = .ok (⟨⟨[⟨1, "A", 0, 40, 1⟩], 2⟩, [⟨1, 1, 3⟩], 2⟩, ["A"])
    ∧ HasName (⟨[⟨1, "A", 1, 5, 1/10⟩], 2⟩ : ExamsTable) "A"
    ∧ lastScale ([⟨some "A", some 0, some 40, some 1⟩].filterMap toExamConfig) "A"
        = some (0, 40, 1)
    ∧ ((∀ r ∈ (⟨⟨[⟨1, "A", 0, 40, 1⟩], 2⟩, [⟨1, 1, 3⟩], 2⟩ : DB).exams.rows,
          r.name = "A" → scaleOf r = (0, 40, 1))
      ∧ (⟨⟨[⟨1, "A", 0, 40, 1⟩], 2⟩, [⟨1, 1, 3⟩], 2⟩ : DB).exams.rows.countP
            (fun r => r.name = "A")
          = (⟨⟨[⟨1, "A", 1, 5, 1/10⟩], 2⟩, [⟨1, 1, 3⟩], 2⟩ : DB).exams.rows.countP
            (fun r => r.name = "A")
      ∧ (⟨⟨[⟨1, "A", 0, 40, 1⟩], 2⟩, [⟨1, 1, 3⟩], 2⟩ : DB).grades
          = (⟨⟨[⟨1, "A", 1, 5, 1/10⟩], 2⟩, [⟨1, 1, 3⟩], 2⟩ : DB).grades) := by
  have h1 : sync_config_with_db (⟨⟨[⟨1, "A", 1, 5, 1/10⟩], 2⟩, [⟨1, 1, 3⟩], 2⟩ : DB)
        (.parsed [⟨some "A", some 0, some 40, some 1⟩])
      = .ok (⟨⟨[⟨1, "A", 0, 40, 1⟩], 2⟩, [⟨1, 1, 3⟩], 2⟩, ["A"]) := by
    with_unfolding_all rfl
  refine ⟨h1, by with_unfolding_all decide, by with_unfolding_all rfl, ?_⟩
  exact C7_overwrite _ _ _ _ "A" 0 40 1 h1 (by with_unfolding_all decide)
    (by with_unfolding_all rfl)

/-- C8: grade submission appends exactly one record carrying the given value
— no range or step validation happens at the storage boundary, the insert is
unconditional for every value — and leaves the exams table, all previously
stored grade rows, and every other exam's grade list unchanged. -/
theorem C8_append_one (db : DB) (eid : ℕ) (v : ℚ) (j : ℕ) (hj : j ≠ eid) :
    (save_grade db eid v).exams = db.exams
    ∧ (save_grade db eid v).grades = db.grades ++ [⟨db.nextGradeId, eid, v⟩]
    ∧ (save_grade db eid v).grades.length = db.grades.length + 1
    ∧ get_grades_for_exam (save_grade db eid v) eid = get_grades_for_exam db eid ++ [v]
    ∧ get_grades_for_exam (save_grade db eid v) j = get_grades_for_exam db j := by
  refine ⟨rfl, rfl, by simp [save_grade], ?_, ?_⟩
  · simp [save_grade, get_grades_for_exam]
  · simp [save_grade, get_grades_for_exam, Ne.symm hj]

/-- Witness for C8: submitting the out-of-range value 99 for exam 1 in a
store holding one grade for exam 2. -/
theorem C8_append_one_witness :
    (2 : ℕ) ≠ 1
    ∧ ((save_grade (⟨⟨[], 1⟩, [⟨1, 2, 3⟩], 2⟩ : DB) 1 99).exams
          = (⟨⟨[], 1⟩, [⟨1, 2, 3⟩], 2⟩ : DB).exams
      ∧ (save_grade (⟨⟨[], 1⟩, [⟨1, 2, 3⟩], 2⟩ : DB) 1 99).grades
          = (⟨⟨[], 1⟩, [⟨1, 2, 3⟩], 2⟩ : DB).grades ++ [⟨2, 1, 99⟩]
      ∧ (save_grade (⟨⟨[], 1⟩, [⟨1, 2, 3⟩], 2⟩ : DB) 1 99).grades.length
          = (⟨⟨[], 1⟩, [⟨1, 2, 3⟩], 2⟩ : DB).grades.length + 1
      ∧ get_grades_for_exam (save_grade (⟨⟨[], 1⟩, [⟨1, 2, 3⟩], 2⟩ : DB) 1 99) 1
          = get_grades_for_exam (⟨⟨[], 1⟩, [⟨1, 2, 3⟩], 2⟩ : DB) 1 ++ [99]
      ∧ get_grades_for_exam (save_grade (⟨⟨[], 1⟩, [⟨1, 2, 3⟩], 2⟩ : DB) 1 99) 2
          = get_grades_for_exam (⟨⟨[], 1⟩, [⟨1, 2, 3⟩], 2⟩ : DB) 2) :=
  ⟨by decide, C8_append_one (⟨⟨[], 1⟩, [⟨1, 2, 3⟩], 2⟩ : DB) 1 99 2 (by decide)⟩

/-- C9: when some record of a parsed config is missing a required key, the
sync raises before `conn.commit()` is reached, and the `sqlite3` connection
context manager rolls the open transaction back, so the observable store is
exactly the one before the call — upserts from earlier records of the same
run are not persisted — and the caller obtains no selector options. -/
theorem C9_rollback (db : DB) (recs : List ConfigRecord) (r : ConfigRecord)
    (hr : r ∈ recs)
    (hbad : r.name = none ∨ r.min = none ∨ r.max = none ∨ r.step = none) :
    selectorOptions db (.parsed recs) = none ∧ runSync db (.parsed recs) = db := by
  obtain ⟨e, he⟩ := syncRecords_error_of_incomplete hr (toExamConfig_eq_none hbad) db.exams []
  have hs : sync_config_with_db db (.parsed recs) = .error e := by
    rw [sync_config_with_db, he]
  constructor
  · unfold selectorOptions
    rw [hs]
  · unfold runSync
    rw [hs]

/-- Witness for C9: a config whose first record is fine and whose second
record lacks `step` leaves the pre-existing store untouched. -/
theorem C9_rollback_witness :
    selectorOptions (⟨⟨[⟨1, "Old", 1, 5, 1/10⟩], 2⟩, [], 1⟩ : DB)
        (.parsed [⟨some "A", some 1, some 5, some (1/10)⟩, ⟨some "B", some 1, some 2, none⟩])
      = none
    ∧ runSync (⟨⟨[⟨1, "Old", 1, 5, 1/10⟩], 2⟩, [], 1⟩ : DB)
        (.parsed [⟨some "A", some 1, some 5, some (1/10)⟩, ⟨some "B", some 1, some 2, none⟩])
      = ⟨⟨[⟨1, "Old", 1, 5, 1/10⟩], 2⟩, [], 1⟩ :=
  C9_rollback _ _ ⟨some "B", some 1, some 2, none⟩
    (List.mem_cons_of_mem _ (List.mem_cons_self _ _))
    (Or.inr (Or.inr (Or.inr rfl)))

/-- C10: when a name occurs in several config records, a sync starting from
a store holding at most one row of that name leaves exactly one row for it,
carrying the scale of the last record with that name, while the returned
name list repeats the name once per occurrence. -/
theorem C10_duplicates (db db' : DB) (recs : List ConfigRecord) (ns : List String)
    (n : String) (mn mx stp : ℚ)
    (hok : sync_config_with_db db (.parsed recs) = .ok (db', ns))
    (huniq : db.exams.rows.countP (fun r => r.name = n) ≤ 1)
    (hdup : 2 ≤ ((recs.filterMap toExamConfig).map (fun r => r.name)).count n)
    (hlast : lastScale (recs.filterMap toExamConfig) n = some (mn, mx, stp)) :
    db'.exams.rows.countP (fun r => r.name = n) = 1
    ∧ (∀ r ∈ db'.exams.rows, r.name = n → scaleOf r = (mn, mx, stp))
    ∧ ns.count n = ((recs.filterMap toExamConfig).map (fun r => r.name)).count n := by
  obtain ⟨_, he, _, _, hns⟩ := sync_ok_parsed hok
  have hmem : n ∈ (recs.filterMap toExamConfig).map (fun r => r.name) :=
    List.count_pos_iff.mp (by omega)
  refine ⟨?_, ?_, ?_⟩
  · rw [he]
    by_cases hpres : HasName db.exams n
    · rw [countP_syncFold_of_HasName db.exams _ hpres]
      have hpos : 0 < db.exams.rows.countP (fun r => r.name = n) := by
        rw [List.countP_pos_iff]
        obtain ⟨r, hrr, hname⟩ := hpres
        exact ⟨r, hrr, by rw [decide_eq_true_eq]; exact hname⟩
      omega
    · rw [countP_syncFold_of_absent db.exams _ hpres, if_pos hmem]
  · rw [he]
    exact scale_syncFold_lastScale _ n _ hlast db.exams
  · rw [hns]

/-- Witness for C10: the name "A" occurs twice, first with scale (1, 5, 0.1)
and then with scale (0, 40, 1); the empty store ends with a single "A" row
carrying (0, 40, 1) while the name list holds "A" twice. -/
theorem C10_duplicates_witness :
    sync_config_with_db emptyDB
        (.parsed [⟨some "A", some 1, some 5, some (1/10)⟩, ⟨some "A", some 0, some 40, some 1⟩])
      = .ok (⟨⟨[⟨1, "A", 0, 40, 1⟩], 2⟩, [], 1⟩, ["A", "A"])
    ∧ emptyDB.exams.rows.countP (fun r => r.name = "A") ≤ 1
    ∧ 2 ≤ (([⟨some "A", some 1, some 5, some (1/10)⟩,
          ⟨some "A", some 0, some 40, some 1⟩] : List ConfigRecord).filterMap
            toExamConfig |>.map (fun r => r.name)).count "A"
    ∧ lastScale (([⟨some "A", some 1, some 5, some (1/10)⟩,
          ⟨some "A", some 0, some 40, some 1⟩] : List ConfigRecord).filterMap
            toExamConfig) "A" = some (0, 40, 1)
    ∧ ((⟨⟨[⟨1, "A", 0, 40, 1⟩], 2⟩, [], 1⟩ : DB).exams.rows.countP
          (fun r => r.name = "A") = 1
      ∧ (∀ r ∈ (⟨⟨[⟨1, "A", 0, 40, 1⟩], 2⟩, [], 1⟩ : DB).exams.rows,
          r.name = "A" → scaleOf r = (0, 40, 1))
      ∧ (["A", "A"] : List String).count "A"
          = (([⟨some "A", some 1, some 5, some (1/10)⟩,
              ⟨some "A", some 0, some 40, some 1⟩] : List ConfigRecord).filterMap
                toExamConfig |>.map (fun r => r.name)).count "A") := by
  have h1 : sync_config_with_db emptyDB
        (.parsed [⟨some "A", some 1, some 5, some (1/10)⟩, ⟨some "A", some 0, some 40, some 1⟩])
      = .ok (⟨⟨[⟨1, "A", 0, 40, 1⟩], 2⟩, [], 1⟩, ["A", "A"]) := by
    with_unfolding_all rfl
  refine ⟨h1, by decide, by with_unfolding_all decide, by with_unfolding_all rfl, ?_⟩
  exact C10_duplicates emptyDB _ _ _ "A" 0 40 1 h1 (by decide)
    (by with_unfolding_all decide) (by with_unfolding_all rfl)

end GradeTracker
